import Mathlib

/-!
Shallow embedding of the TabAgent core of the repository
(src/agents/tab.py and src/agents/types.py).

Times and cost weights are modelled as rationals; the Python float
infinity used by the Viterbi dynamic program is modelled as the top
element of `WithTop ℚ`.  Code paths that would raise an exception are
modelled with `Option`/`Except`.
-/

namespace TabHF

/-- A transcribed note, as in `agents/ear.py` / `agents/types.py`. -/
structure Note where
  pitch : Int
  start_time : ℚ
  end_time : ℚ
  velocity : Int
deriving DecidableEq, Repr

/-- A note positioned on the fretboard (`TabNote` in `agents/tab.py`). -/
structure TabNote where
  string : Nat
  fret : Int
  start_time : ℚ
  end_time : ℚ
  technique : String
  pitch : Int
deriving DecidableEq, Repr

/-- A `(string index, fret)` candidate position. -/
abbrev Pos := Nat × Int

/-- The state of a constructed `TabAgent`: configuration plus the cost
weights fixed in `TabAgent.__init__`. -/
structure TabAgentState where
  instrument : String
  num_frets : Int
  tuning : List Int
  num_strings : Nat
  fret_distance_weight : ℚ
  string_change_weight : ℚ
  legato_bonus : ℚ
  string_skip_penalty : ℚ
deriving DecidableEq, Repr

namespace TabAgent

/-- `TabAgent.__init__`: lower-cases the instrument tag, picks the default
tuning when none is given, and records the fixed cost weights.  The body
of the Python constructor contains no `raise`, so construction always
succeeds; the `Except` codomain records that no error path exists. -/
def init (tuning : Option (List Int)) (num_frets : Int) (instrument : String) :
    Except String TabAgentState :=
  let inst := instrument.toLower
  let t : List Int :=
    match tuning with
    | none => if inst = "bass" then [23, 28, 33, 38, 43] else [40, 45, 50, 55, 59, 64]
    | some t => t
  Except.ok
    { instrument := inst
      num_frets := num_frets
      tuning := t
      num_strings := t.length
      fret_distance_weight := 3/2
      string_change_weight := 2
      legato_bonus := -5
      string_skip_penalty := 5 }

/-- `TabAgent._find_positions`: all `(string, fret)` pairs with
`0 ≤ pitch - open_pitch ≤ num_frets`, strings enumerated in ascending
index order. -/
def findPositions (a : TabAgentState) (pitch : Int) : List Pos :=
  a.tuning.enum.filterMap fun e =>
    let fret := pitch - e.2
    if 0 ≤ fret ∧ fret ≤ a.num_frets then some (e.1, fret) else none

/-- `TabAgent._position_cost`. -/
def positionCost (a : TabAgentState) (pos : Pos) : ℚ :=
  let cost : ℚ := 0
  let cost := if 12 < pos.2 then cost + ((pos.2 - 12 : Int) : ℚ) * (3/10) else cost
  let cost := if a.instrument = "bass" ∧ pos.1 < 2 ∧ pos.2 < 5 then cost + 2 else cost
  cost

/-- `TabAgent._transition_cost`. -/
def transitionCost (a : TabAgentState) (pos_prev pos_curr : Pos) (time_gap : ℚ) : ℚ :=
  let fret_dist : Nat := (pos_curr.2 - pos_prev.2).natAbs
  let string_dist : Nat := ((pos_curr.1 : Int) - (pos_prev.1 : Int)).natAbs
  let cost : ℚ := (fret_dist : ℚ) * a.fret_distance_weight
  let cost := cost + (string_dist : ℚ) * a.string_change_weight
  let cost :=
    if time_gap < 1/5 ∧ pos_curr.1 = pos_prev.1 ∧ 1 ≤ fret_dist ∧ fret_dist ≤ 2 then
      cost + a.legato_bonus
    else cost
  let cost :=
    if time_gap < 1/5 ∧ 1 < string_dist then cost + a.string_skip_penalty else cost
  cost

/-- One layer of the DP tables: for each candidate position of the current
note, the accumulated cost (`costs[i][pos]`, `⊤` = `float('inf')`) and the
backpointer (`backptr[i][pos]`). -/
abbrev Layer := List (Pos × (WithTop ℚ × Option Pos))

/-- `costs[i].get(pos, float('inf'))`. -/
def lookupCost (L : Layer) (p : Pos) : WithTop ℚ :=
  match L.find? (fun e => e.1 == p) with
  | some e => e.2.1
  | none => ⊤

/-- `backptr[i][pos]`; a missing key (Python `KeyError`) and a stored
`None` backpointer both yield `none`, since either aborts the Python
backtracking loop. -/
def lookupBptr (L : Layer) (p : Pos) : Option Pos :=
  match L.find? (fun e => e.1 == p) with
  | some e => e.2.2
  | none => none

/-- Initialization of the first note layer:
`costs[0][pos] = position_cost(pos)`, `backptr[0][pos] = None`. -/
def initLayer (a : TabAgentState) (ps : List Pos) : Layer :=
  ps.map fun p => (p, ((positionCost a p : WithTop ℚ), (none : Option Pos)))

/-- The inner loop of the Viterbi forward pass: scan `positions_prev`
keeping the first predecessor that strictly improves the running minimum
total cost (`min_cost` starts at `float('inf')`, `best_prev` at `None`). -/
def bestPrevFold (a : TabAgentState) (prevLayer : Layer) (time_gap : ℚ)
    (positions_prev : List Pos) (pos_curr : Pos) : WithTop ℚ × Option Pos :=
  positions_prev.foldl
    (fun acc pos_prev =>
      let total := lookupCost prevLayer pos_prev +
        (transitionCost a pos_prev pos_curr time_gap : WithTop ℚ)
      if total < acc.1 then (total, some pos_prev) else acc)
    (⊤, none)

/-- One step of the forward pass: for every current candidate, the best
predecessor plus the current position cost. -/
def forwardStep (a : TabAgentState) (prevLayer : Layer) (positions_prev : List Pos)
    (positions_curr : List Pos) (time_gap : ℚ) : Layer :=
  positions_curr.map fun pos_curr =>
    let best := bestPrevFold a prevLayer time_gap positions_prev pos_curr
    (pos_curr, (best.1 + (positionCost a pos_curr : WithTop ℚ), best.2))

/-- The forward pass over notes `1 .. n-1`, producing one layer per note. -/
def viterbiGo (a : TabAgentState) :
    Note → List Pos → Layer → List (Note × List Pos) → List Layer
  | _, _, _, [] => []
  | prevNote, prevPs, prevLayer, (n, ps) :: rest =>
    let time_gap := n.start_time - prevNote.end_time
    let L := forwardStep a prevLayer prevPs ps time_gap
    L :: viterbiGo a n ps L rest

/-- `min(positions_last, key=...)`: first element attaining the minimal
key; `none` on an empty list (Python `ValueError`). -/
def argminFirst (f : Pos → WithTop ℚ) : List Pos → Option Pos
  | [] => none
  | h :: t => some (t.foldl (fun best p => if f p < f best then p else best) h)

/-- The backtracking loop, from the last layer down to layer 1; a failed
backpointer lookup (which would crash the Python loop) yields `none`. -/
def traceBack : List Layer → Pos → Option (List Pos)
  | [], p => some [p]
  | L :: rest, p =>
    match lookupBptr L p with
    | some q => (traceBack rest q).map (fun path => p :: path)
    | none => none

/-- `TabAgent._viterbi_path`: forward pass, argmin over the last layer,
backtracking, and conversion of the chosen path into `TabNote`s with
technique `"pick"`. -/
def viterbiPath (a : TabAgentState) (note_positions : List (Note × List Pos)) :
    Option (List TabNote) :=
  match note_positions with
  | [] => some []
  | (n0, ps0) :: rest =>
    let layer0 := initLayer a ps0
    let layers := viterbiGo a n0 ps0 layer0 rest
    let lastLayer := layers.getLastD layer0
    let positionsLast := (rest.map (fun e => e.2)).getLastD ps0
    match argminFirst (fun p => lookupCost lastLayer p) positionsLast with
    | none => none
    | some best =>
      match traceBack layers.reverse best with
      | none => none
      | some pathRev =>
        let path := pathRev.reverse
        some ((note_positions.zip path).map fun e =>
          { string := e.2.1
            fret := e.2.2
            start_time := e.1.1.start_time
            end_time := e.1.1.end_time
            technique := "pick"
            pitch := e.1.1.pitch })

/-- The body of the technique-detection loop for one consecutive pair:
may relabel the current note as slide / hammer / pull. -/
def detectStep (prev curr : TabNote) : TabNote :=
  let time_gap := curr.start_time - prev.end_time
  if curr.string = prev.string ∧ time_gap < 3/20 then
    let fret_diff := curr.fret - prev.fret
    if 1 ≤ fret_diff.natAbs ∧ fret_diff.natAbs ≤ 3 then
      if 0 < fret_diff then
        { curr with technique := if 1 < fret_diff then "slide" else "hammer" }
      else
        { curr with technique := "pull" }
    else curr
  else curr

/-- The technique-detection loop from index 1 on; `prev` is the already
processed predecessor. -/
def detectGo (prev : TabNote) : List TabNote → List TabNote
  | [] => []
  | c :: rest =>
    let c' := detectStep prev c
    c' :: detectGo c' rest

/-- `TabAgent._detect_techniques`. -/
def detectTechniques (tab_notes : List TabNote) : List TabNote :=
  match tab_notes with
  | [] => []
  | [t] => [t]
  | t0 :: rest => t0 :: detectGo t0 rest

/-- `TabAgent.generate_tab`: sort by start time, enumerate positions and
drop unplayable notes, run the Viterbi DP, then detect techniques. -/
def generateTab (a : TabAgentState) (notes : List Note) : Option (List TabNote) :=
  if notes.isEmpty then some [] else
  let sortedNotes := notes.mergeSort (fun x y => x.start_time ≤ y.start_time)
  let note_positions := sortedNotes.filterMap fun n =>
    let ps := findPositions a n.pitch
    if ps.isEmpty then none else some (n, ps)
  if note_positions.isEmpty then some [] else
  (viterbiPath a note_positions).map detectTechniques

end TabAgent

/-- `agents.types.Note.__post_init__`: the validation checks, in source
order, yielding the `ValueError` message raised, or the constructed note. -/
def TypesNote.mk? (pitch : Int) (start_time end_time : ℚ) (velocity : Int) :
    Except String Note :=
  if ¬(0 ≤ pitch ∧ pitch ≤ 127) then Except.error "Pitch must be 0-127"
  else if ¬(0 ≤ velocity ∧ velocity ≤ 127) then Except.error "Velocity must be 0-127"
  else if start_time < 0 then Except.error "Start time must be non-negative"
  else if end_time < start_time then Except.error "End time must be >= start time"
  else Except.ok { pitch := pitch, start_time := start_time, end_time := end_time, velocity := velocity }

/-- The position-cost formula as the spec sentence of claim C2 words it:
`0.3 × max(0, fret − 12)` plus `2.0` exactly when the instrument is
bass-category, `string < 2` and `0 < fret < 5`. -/
def positionCostClaimC2 (a : TabAgentState) (pos : Pos) : ℚ :=
  (3/10) * max 0 ((pos.2 : ℚ) - 12) +
    (if a.instrument = "bass" ∧ pos.1 < 2 ∧ 0 < pos.2 ∧ pos.2 < 5 then 2 else 0)

/-- The standard-guitar agent state produced by
`TabAgent(tuning=[40,45,50,55,59,64], num_frets=24, instrument="guitar")`. -/
def cfgStd : TabAgentState :=
  { instrument := "guitar", num_frets := 24, tuning := [40, 45, 50, 55, 59, 64],
    num_strings := 6, fret_distance_weight := 3/2, string_change_weight := 2,
    legato_bonus := -5, string_skip_penalty := 5 }

/-- The default 5-string bass agent state produced by
`TabAgent(instrument="bass")`. -/
def cfgBass : TabAgentState :=
  { instrument := "bass", num_frets := 24, tuning := [23, 28, 33, 38, 43],
    num_strings := 5, fret_distance_weight := 3/2, string_change_weight := 2,
    legato_bonus := -5, string_skip_penalty := 5 }

/-- The first note of the claim C1 scenario: pitch 45, 0.0 s to 0.5 s. -/
def n45 : Note := { pitch := 45, start_time := 0, end_time := 1/2, velocity := 80 }

/-- The second note of the claim C1 scenario: pitch 47, 0.5 s to 0.7 s. -/
def n47 : Note := { pitch := 47, start_time := 1/2, end_time := 7/10, velocity := 80 }

/-- The first expected output note of the C1 scenario, as computed by the
code: string 0, fret 5, labelled pick. -/
def tabA : TabNote :=
  { string := 0, fret := 5, start_time := 0, end_time := 1/2,
    technique := "pick", pitch := 45 }

/-- The second expected output note of the C1 scenario, as computed by the
code: string 0, fret 7, labelled slide. -/
def tabB : TabNote :=
  { string := 0, fret := 7, start_time := 1/2, end_time := 7/10,
    technique := "slide", pitch := 47 }

/-- The first DP layer of the C1 scenario (candidates of pitch 45). -/
def layer45 : TabAgent.Layer := TabAgent.initLayer cfgStd [(0, 5), (1, 0)]

/-- Generic strict-improvement minimum scan: the accumulator pattern used
by the inner predecessor loop of `_viterbi_path` (first strict improvement
wins, so the earliest minimum is kept). -/
def minScan (g : α → WithTop ℚ) (l : List α) (acc : WithTop ℚ × Option α) :
    WithTop ℚ × Option α :=
  l.foldl (fun acc p => if g p < acc.1 then (g p, some p) else acc) acc

/-- Geometry-preservation between two tab notes: equal on every field
except possibly the technique label. -/
def sameGeometry (t' t : TabNote) : Prop :=
  t'.string = t.string ∧ t'.fret = t.fret ∧ t'.start_time = t.start_time ∧
    t'.end_time = t.end_time ∧ t'.pitch = t.pitch

/-- The technique-labelling rule of claim C6 for a consecutive output
pair: slide / hammer / pull on a same-string, quick, small-fret-move
transition, `pick` otherwise. -/
def techniqueSpec (prev curr : TabNote) : Prop :=
  curr.technique =
    if curr.string = prev.string ∧ curr.start_time - prev.end_time < 3/20 ∧
        1 ≤ (curr.fret - prev.fret).natAbs ∧ (curr.fret - prev.fret).natAbs ≤ 3 then
      (if 1 < curr.fret - prev.fret then "slide"
       else if curr.fret - prev.fret = 1 then "hammer" else "pull")
    else "pick"

/-- Backpointer-chain invariant for the reversed layer list produced by
the forward pass: from any position of the top layer, every backpointer
lookup succeeds and lands in the positions of the next layer down,
bottoming out at `bot`.  The list argument records the successive
positions lists. -/
inductive BChain : List Pos → List TabAgent.Layer → List (List Pos) → List Pos → Prop where
  | nil (ps : List Pos) : BChain ps [] [] ps
  | cons {ps ps' bot : List Pos} {L : TabAgent.Layer} {rest : List TabAgent.Layer}
      {pss : List (List Pos)}
      (hstep : ∀ p ∈ ps, ∃ q, TabAgent.lookupBptr L p = some q ∧ q ∈ ps')
      (htail : BChain ps' rest pss bot) : BChain ps (L :: rest) (ps' :: pss) bot

namespace TabAgent

/-- Every position returned by `_find_positions` is in range and
reproduces the pitch: `tuning[string] + fret = pitch`. -/
theorem findPositions_mem {a : TabAgentState} {pitch : Int} {p : Pos}
    (h : p ∈ findPositions a pitch) :
    p.1 < a.tuning.length ∧ 0 ≤ p.2 ∧ p.2 ≤ a.num_frets ∧
      a.tuning[p.1]? = some (pitch - p.2) := by
  unfold findPositions at h
  obtain ⟨⟨i, op⟩, hmem, hf⟩ := List.mem_filterMap.mp h
  dsimp only at hf
  split at hf
  · rename_i hc
    simp only [Option.mem_def, Option.some.injEq] at hf
    subst hf
    have hop : a.tuning[i]? = some op := List.mk_mem_enum_iff_getElem?.mp hmem
    have hlen : i < a.tuning.length := by
      have := List.getElem?_eq_some.mp hop
      exact this.1
    refine ⟨hlen, hc.1, hc.2, ?_⟩
    rw [hop]
    congr 1
    omega
  · exact absurd hf (by simp)

/-- `enumerate` yields strictly increasing indices. -/
theorem enumFrom_pairwise_fst_lt (l : List Int) :
    ∀ i, (l.enumFrom i).Pairwise (fun p q => p.1 < q.1) := by
  induction l with
  | nil => intro i; simp
  | cons x xs ih =>
    intro i
    rw [List.enumFrom_cons]
    refine List.Pairwise.cons ?_ (ih (i + 1))
    intro q hq
    obtain ⟨j, y⟩ := q
    have : i + 1 ≤ j := List.le_fst_of_mem_enumFrom hq
    omega

/-- `_find_positions` enumerates candidates in strictly ascending
string-index order. -/
theorem findPositions_pairwise (a : TabAgentState) (pitch : Int) :
    (findPositions a pitch).Pairwise (fun p q => p.1 < q.1) := by
  unfold findPositions
  refine List.Pairwise.filterMap _ ?_ (enumFrom_pairwise_fst_lt a.tuning 0)
  intro e e' hlt b hb b' hb'
  have h1 : b.1 = e.1 := by
    dsimp only at hb; split at hb
    · simp only [Option.mem_def, Option.some.injEq] at hb
      subst hb; rfl
    · exact absurd hb (by simp)
  have h2 : b'.1 = e'.1 := by
    dsimp only at hb'; split at hb'
    · simp only [Option.mem_def, Option.some.injEq] at hb'
      subst hb'; rfl
    · exact absurd hb' (by simp)
  rw [h1, h2]; exact hlt

/-- C2 (counterexample): the claim's position-cost formula adds no bass
penalty at `fret = 0`, but `_position_cost` checks only `fret < 5`, so for
the default bass agent the open low string costs `2.0`, not `0`. -/
theorem c2_counterexample :
    positionCost cfgBass (0, 0) ≠ positionCostClaimC2 cfgBass (0, 0) := by
  unfold positionCost positionCostClaimC2 cfgBass
  norm_num

/-- C2 (amended): the position cost equals `0.3 × max(0, fret − 12)` plus
`2.0` exactly when the instrument is bass-category, `string < 2` and
`fret < 5` — including the open string `fret = 0`. -/
theorem c2_amended (a : TabAgentState) (pos : Pos) :
    positionCost a pos =
      (3/10) * max 0 ((pos.2 : ℚ) - 12) +
        (if a.instrument = "bass" ∧ pos.1 < 2 ∧ pos.2 < 5 then 2 else 0) := by
  obtain ⟨s, f⟩ := pos
  unfold positionCost
  dsimp only
  by_cases h12 : 12 < f
  · rw [if_pos h12]
    have hmax : max 0 ((f : ℚ) - 12) = (f : ℚ) - 12 := by
      have : (12 : ℚ) < (f : ℚ) := by exact_mod_cast h12
      exact max_eq_right (by linarith)
    rw [hmax]
    split_ifs <;> push_cast <;> ring
  · rw [if_neg h12]
    have hmax : max 0 ((f : ℚ) - 12) = 0 := by
      have : (f : ℚ) ≤ (12 : ℚ) := by exact_mod_cast (not_lt.mp h12)
      exact max_eq_left (by linarith)
    rw [hmax]
    split_ifs <;> ring

/-- C3 (counterexample): constructing a `TabAgent` with an empty
open-pitch list and a negative fret limit succeeds — `__init__` performs
no validation and no `InvalidTuningConfiguration` error exists. -/
theorem c3_counterexample : (TabAgent.init (some []) (-1) "guitar").isOk = true := by
  decide

/-- C3 (amended): `TabAgent.__init__` never raises: construction succeeds
for every tuning (including the empty list), every fret limit (including
negative ones) and every instrument string. -/
theorem c3_amended (tuning : Option (List Int)) (num_frets : Int) (instrument : String) :
    (TabAgent.init tuning num_frets instrument).isOk = true := by
  rfl

unseal Rat.add Rat.mul Rat.sub Rat.inv Nat.gcd List.merge List.mergeSort in
/-- C1 (counterexample): on the claim's input the first output note is
not at `(string=1, fret=0)` (it is at `(string=0, fret=5)`; pitch 47 is
also playable at `(0, 7)`, the all-string-0 path ties at cost −2.0 and
wins the tie-break). -/
theorem c1_counterexample :
    ((generateTab cfgStd [n45, n47]).bind List.head?).map (fun t => (t.string, t.fret)) ≠
      some (1, 0) := by
  decide

unseal Rat.add Rat.mul Rat.sub Rat.inv Nat.gcd List.merge List.mergeSort in
/-- C1 (amended): for the standard-guitar agent on notes
`[(45, 0.0–0.5), (47, 0.5–0.7)]`, `generate_tab` resolves the first note
to `(string=0, fret=5)` (the tie with the string-1 path at cost −2.0 is
broken in favour of string 0, the first enumerated candidate) and labels
the second output note's technique `slide`. -/
theorem c1_amended :
    generateTab cfgStd [n45, n47] = some
      [{ string := 0, fret := 5, start_time := 0, end_time := 1/2,
         technique := "pick", pitch := 45 },
       { string := 0, fret := 7, start_time := 1/2, end_time := 7/10,
         technique := "slide", pitch := 47 }] := by
  decide

end TabAgent

/-- C10: `agents.types.Note` construction succeeds exactly when the pitch
and velocity are within `[0, 127]`, the start time is non-negative and the
end time is at least the start time; it raises `ValueError` in every other
case. -/
theorem c10_note_validation (pitch : Int) (s e : ℚ) (v : Int) :
    (TypesNote.mk? pitch s e v).isOk = true ↔
      (0 ≤ pitch ∧ pitch ≤ 127 ∧ 0 ≤ v ∧ v ≤ 127 ∧ 0 ≤ s ∧ s ≤ e) := by
  unfold TypesNote.mk?
  by_cases hp : 0 ≤ pitch ∧ pitch ≤ 127
  · rw [if_neg (not_not_intro hp)]
    by_cases hv : 0 ≤ v ∧ v ≤ 127
    · rw [if_neg (not_not_intro hv)]
      by_cases hs : s < 0
      · rw [if_pos hs]
        constructor
        · intro h; simp [Except.isOk, Except.toBool] at h
        · intro h; exact absurd h.2.2.2.2.1 (not_le.mpr hs)
      · rw [if_neg hs]
        by_cases he : e < s
        · rw [if_pos he]
          constructor
          · intro h; simp [Except.isOk, Except.toBool] at h
          · intro h; exact absurd h.2.2.2.2.2 (not_le.mpr he)
        · rw [if_neg he]
          exact ⟨fun _ => ⟨hp.1, hp.2, hv.1, hv.2, not_lt.mp hs, not_lt.mp he⟩,
            fun _ => rfl⟩
    · rw [if_pos hv]
      constructor
      · intro h; simp [Except.isOk, Except.toBool] at h
      · intro h; exact absurd ⟨h.2.2.1, h.2.2.2.1⟩ hv
  · rw [if_pos hp]
    constructor
    · intro h; simp [Except.isOk, Except.toBool] at h
    · intro h; exact absurd ⟨h.1, h.2.1⟩ hp

namespace TabAgent

/-- Association lookup on a layer built by mapping over a positions list
finds the mapped value of any member. -/
theorem find?_map_eq (v : Pos → WithTop ℚ × Option Pos) :
    ∀ (ps : List Pos) (p : Pos), p ∈ ps →
      (ps.map (fun q => (q, v q))).find? (fun e => e.1 == p) = some (p, v p) := by
  intro ps
  induction ps with
  | nil => intro p hp; cases hp
  | cons q t ih =>
    intro p hp
    by_cases hqp : q = p
    · subst hqp
      rw [List.map_cons]
      exact List.find?_cons_of_pos _ (by simp)
    · rw [List.map_cons, List.find?_cons_of_neg _ (by simp [hqp])]
      exact ih p (by rcases List.mem_cons.mp hp with h | h; exact absurd h.symm hqp; exact h)

/-- Cost lookup in the first DP layer. -/
theorem lookupCost_initLayer (a : TabAgentState) {ps : List Pos} {p : Pos} (hp : p ∈ ps) :
    lookupCost (initLayer a ps) p = (positionCost a p : WithTop ℚ) := by
  unfold lookupCost initLayer
  rw [find?_map_eq (fun q => ((positionCost a q : WithTop ℚ), (none : Option Pos))) ps p hp]

/-- Cost lookup in a forward-pass layer. -/
theorem lookupCost_forwardStep (a : TabAgentState) (prevLayer : Layer)
    (positions_prev : List Pos) {ps : List Pos} (tg : ℚ) {p : Pos} (hp : p ∈ ps) :
    lookupCost (forwardStep a prevLayer positions_prev ps tg) p =
      (bestPrevFold a prevLayer tg positions_prev p).1 + (positionCost a p : WithTop ℚ) := by
  unfold lookupCost forwardStep
  rw [find?_map_eq (fun q =>
    ((bestPrevFold a prevLayer tg positions_prev q).1 + (positionCost a q : WithTop ℚ),
      (bestPrevFold a prevLayer tg positions_prev q).2)) ps p hp]

/-- Backpointer lookup in a forward-pass layer. -/
theorem lookupBptr_forwardStep (a : TabAgentState) (prevLayer : Layer)
    (positions_prev : List Pos) {ps : List Pos} (tg : ℚ) {p : Pos} (hp : p ∈ ps) :
    lookupBptr (forwardStep a prevLayer positions_prev ps tg) p =
      (bestPrevFold a prevLayer tg positions_prev p).2 := by
  unfold lookupBptr forwardStep
  rw [find?_map_eq (fun q =>
    ((bestPrevFold a prevLayer tg positions_prev q).1 + (positionCost a q : WithTop ℚ),
      (bestPrevFold a prevLayer tg positions_prev q).2)) ps p hp]

/-- The strict-improvement scan keeps the accumulator when nothing
improves it, and otherwise returns the first element attaining the
minimum (everything before it is strictly worse, everything after it is
no better). -/
theorem minScan_spec (g : α → WithTop ℚ) :
    ∀ (l : List α) (c : WithTop ℚ) (o : Option α),
      (minScan g l (c, o) = (c, o) ∧ ∀ r ∈ l, c ≤ g r) ∨
      (∃ l₁ q l₂, l = l₁ ++ q :: l₂ ∧ minScan g l (c, o) = (g q, some q) ∧ g q < c ∧
        (∀ r ∈ l₁, g q < g r) ∧ (∀ r ∈ l₂, g q ≤ g r)) := by
  intro l
  induction l with
  | nil => intro c o; exact Or.inl ⟨rfl, by intro r hr; cases hr⟩
  | cons p t ih =>
    intro c o
    by_cases hpc : g p < c
    · have hstep : minScan g (p :: t) (c, o) = minScan g t (g p, some p) := by
        unfold minScan
        rw [List.foldl_cons, if_pos hpc]
      rcases ih (g p) (some p) with ⟨heq, hall⟩ | ⟨l₁, q, l₂, hl, heq, hlt, hstrict, hle⟩
      · refine Or.inr ⟨[], p, t, rfl, ?_, hpc,
          fun r hr => absurd hr (List.not_mem_nil r), hall⟩
        rw [hstep, heq]
      · refine Or.inr ⟨p :: l₁, q, l₂, by rw [hl]; rfl, ?_, lt_trans hlt hpc, ?_, hle⟩
        · rw [hstep, heq]
        · intro r hr
          rcases List.mem_cons.mp hr with rfl | hr'
          · exact hlt
          · exact hstrict r hr'
    · have hstep : minScan g (p :: t) (c, o) = minScan g t (c, o) := by
        unfold minScan
        rw [List.foldl_cons, if_neg hpc]
      rcases ih c o with ⟨heq, hall⟩ | ⟨l₁, q, l₂, hl, heq, hlt, hstrict, hle⟩
      · refine Or.inl ⟨by rw [hstep, heq], ?_⟩
        intro r hr
        rcases List.mem_cons.mp hr with rfl | hr'
        · exact not_lt.mp hpc
        · exact hall r hr'
      · refine Or.inr ⟨p :: l₁, q, l₂, by rw [hl]; rfl, by rw [hstep, heq], hlt, ?_, hle⟩
        intro r hr
        rcases List.mem_cons.mp hr with rfl | hr'
        · exact lt_of_lt_of_le hlt (not_lt.mp hpc)
        · exact hstrict r hr'

/-- The inner predecessor loop of the forward pass is an instance of the
strict-improvement scan. -/
theorem bestPrevFold_eq_minScan (a : TabAgentState) (prevLayer : Layer) (tg : ℚ)
    (positions_prev : List Pos) (pos_curr : Pos) :
    bestPrevFold a prevLayer tg positions_prev pos_curr =
      minScan (fun pp => lookupCost prevLayer pp + (transitionCost a pp pos_curr tg : WithTop ℚ))
        positions_prev (⊤, none) := rfl

/-- A finite cost plus a real transition cost is finite. -/
theorem total_ne_top {c : WithTop ℚ} (hc : c ≠ ⊤) (t : ℚ) : c + (t : WithTop ℚ) ≠ ⊤ :=
  WithTop.add_ne_top.mpr ⟨hc, WithTop.coe_ne_top⟩

/-- Full characterization of the predecessor choice: over a non-empty
candidate list with finite costs, the loop selects the first candidate of
minimal total cost. -/
theorem bestPrevFold_first_min (a : TabAgentState) (prevLayer : Layer) (tg : ℚ)
    (positions_prev : List Pos) (pos_curr : Pos)
    (hne : positions_prev ≠ [])
    (hfin : ∀ pp ∈ positions_prev, lookupCost prevLayer pp ≠ ⊤) :
    ∃ l₁ q l₂, positions_prev = l₁ ++ q :: l₂ ∧
      bestPrevFold a prevLayer tg positions_prev pos_curr =
        (lookupCost prevLayer q + (transitionCost a q pos_curr tg : WithTop ℚ), some q) ∧
      (∀ r ∈ l₁,
        lookupCost prevLayer q + (transitionCost a q pos_curr tg : WithTop ℚ) <
          lookupCost prevLayer r + (transitionCost a r pos_curr tg : WithTop ℚ)) ∧
      (∀ r ∈ positions_prev,
        lookupCost prevLayer q + (transitionCost a q pos_curr tg : WithTop ℚ) ≤
          lookupCost prevLayer r + (transitionCost a r pos_curr tg : WithTop ℚ)) := by
  set g : Pos → WithTop ℚ :=
    fun pp => lookupCost prevLayer pp + (transitionCost a pp pos_curr tg : WithTop ℚ) with hg
  rcases minScan_spec g positions_prev ⊤ none with ⟨_, hall⟩ | ⟨l₁, q, l₂, hl, heq, _, hstrict, hle⟩
  · obtain ⟨p0, t, rfl⟩ := List.exists_cons_of_ne_nil hne
    have h0 : g p0 = ⊤ := top_le_iff.mp (hall p0 (List.mem_cons_self p0 t))
    exact absurd h0 (total_ne_top (hfin p0 (List.mem_cons_self p0 t)) _)
  · refine ⟨l₁, q, l₂, hl, ?_, hstrict, ?_⟩
    · rw [bestPrevFold_eq_minScan, ← hg, heq]
    · intro r hr
      rw [hl] at hr
      rcases List.mem_append.mp hr with hr1 | hr2
      · exact le_of_lt (hstrict r hr1)
      · rcases List.mem_cons.mp hr2 with rfl | hr3
        · exact le_refl _
        · exact hle r hr3

/-- Existential form: the predecessor loop always selects some member of
the candidate list, with a finite total cost. -/
theorem bestPrevFold_spec (a : TabAgentState) (prevLayer : Layer) (tg : ℚ)
    (positions_prev : List Pos) (pos_curr : Pos)
    (hne : positions_prev ≠ [])
    (hfin : ∀ pp ∈ positions_prev, lookupCost prevLayer pp ≠ ⊤) :
    ∃ c q, bestPrevFold a prevLayer tg positions_prev pos_curr = (c, some q) ∧
      q ∈ positions_prev ∧ c ≠ ⊤ := by
  obtain ⟨l₁, q, l₂, hl, heq, _, _⟩ :=
    bestPrevFold_first_min a prevLayer tg positions_prev pos_curr hne hfin
  have hqmem : q ∈ positions_prev := by
    rw [hl]; exact List.mem_append.mpr (Or.inr (List.mem_cons_self q l₂))
  exact ⟨_, q, heq, hqmem, total_ne_top (hfin q hqmem) _⟩

/-- The running-best fold of Python's `min(..., key=...)` keeps its
argument when nothing strictly improves on it, and otherwise returns the
first element attaining the minimum. -/
theorem argminGo_spec (f : Pos → WithTop ℚ) :
    ∀ (t : List Pos) (b : Pos),
      (t.foldl (fun best p => if f p < f best then p else best) b = b ∧ ∀ r ∈ t, f b ≤ f r) ∨
      (∃ l₁ q l₂, t = l₁ ++ q :: l₂ ∧
        t.foldl (fun best p => if f p < f best then p else best) b = q ∧ f q < f b ∧
        (∀ r ∈ l₁, f q < f r) ∧ (∀ r ∈ l₂, f q ≤ f r)) := by
  intro t
  induction t with
  | nil => intro b; exact Or.inl ⟨rfl, by intro r hr; cases hr⟩
  | cons p t ih =>
    intro b
    by_cases hpb : f p < f b
    · have hstep : (p :: t).foldl (fun best p => if f p < f best then p else best) b =
          t.foldl (fun best p => if f p < f best then p else best) p := by
        rw [List.foldl_cons, if_pos hpb]
      rcases ih p with ⟨heq, hall⟩ | ⟨l₁, q, l₂, hl, heq, hlt, hstrict, hle⟩
      · refine Or.inr ⟨[], p, t, rfl, ?_, hpb,
          fun r hr => absurd hr (List.not_mem_nil r), hall⟩
        rw [hstep, heq]
      · refine Or.inr ⟨p :: l₁, q, l₂, by rw [hl]; rfl, ?_, lt_trans hlt hpb, ?_, hle⟩
        · rw [hstep, heq]
        · intro r hr
          rcases List.mem_cons.mp hr with rfl | hr'
          · exact hlt
          · exact hstrict r hr'
    · have hstep : (p :: t).foldl (fun best p => if f p < f best then p else best) b =
          t.foldl (fun best p => if f p < f best then p else best) b := by
        rw [List.foldl_cons, if_neg hpb]
      rcases ih b with ⟨heq, hall⟩ | ⟨l₁, q, l₂, hl, heq, hlt, hstrict, hle⟩
      · refine Or.inl ⟨by rw [hstep, heq], ?_⟩
        intro r hr
        rcases List.mem_cons.mp hr with rfl | hr'
        · exact not_lt.mp hpb
        · exact hall r hr'
      · refine Or.inr ⟨p :: l₁, q, l₂, by rw [hl]; rfl, by rw [hstep, heq], hlt, ?_, hle⟩
        intro r hr
        rcases List.mem_cons.mp hr with rfl | hr'
        · exact lt_of_lt_of_le hlt (not_lt.mp hpb)
        · exact hstrict r hr'

/-- `min(positions, key=cost)` returns the first element of minimal cost:
everything before it is strictly costlier, nothing anywhere is cheaper. -/
theorem argminFirst_spec (f : Pos → WithTop ℚ) (ps : List Pos) (hne : ps ≠ []) :
    ∃ l₁ q l₂, ps = l₁ ++ q :: l₂ ∧ argminFirst f ps = some q ∧
      (∀ r ∈ l₁, f q < f r) ∧ (∀ r ∈ ps, f q ≤ f r) := by
  obtain ⟨h, t, rfl⟩ := List.exists_cons_of_ne_nil hne
  have hfold : argminFirst f (h :: t) =
      some (t.foldl (fun best p => if f p < f best then p else best) h) := rfl
  rcases argminGo_spec f t h with ⟨heq, hall⟩ | ⟨l₁, q, l₂, hl, heq, hlt, hstrict, hle⟩
  · refine ⟨[], h, t, rfl, ?_, fun r hr => absurd hr (List.not_mem_nil r), ?_⟩
    · rw [hfold, heq]
    · intro r hr
      rcases List.mem_cons.mp hr with rfl | hr'
      · exact le_refl _
      · exact hall r hr'
  · refine ⟨h :: l₁, q, l₂, by rw [hl]; rfl, ?_, ?_, ?_⟩
    · rw [hfold, heq]
    · intro r hr
      rcases List.mem_cons.mp hr with rfl | hr'
      · exact hlt
      · exact hstrict r hr'
    · intro r hr
      rcases List.mem_cons.mp hr with rfl | hr'
      · exact le_of_lt hlt
      · rw [hl] at hr'
        rcases List.mem_append.mp hr' with hr1 | hr2
        · exact le_of_lt (hstrict r hr1)
        · rcases List.mem_cons.mp hr2 with rfl | hr3
          · exact le_refl _
          · exact hle r hr3

end TabAgent

/-- A backpointer chain can be extended at the bottom by one more layer
whose backpointers land in a new bottom positions list. -/
theorem BChain.append_one {ps : List Pos} {ch : List TabAgent.Layer}
    {pss : List (List Pos)} {bot : List Pos}
    (h : BChain ps ch pss bot) {L : TabAgent.Layer} {newBot : List Pos}
    (hstep : ∀ p ∈ bot, ∃ q, TabAgent.lookupBptr L p = some q ∧ q ∈ newBot) :
    BChain ps (ch ++ [L]) (pss ++ [newBot]) newBot := by
  induction h with
  | nil ps => exact .cons hstep (.nil newBot)
  | cons hstep' _ ih => exact .cons hstep' (ih hstep)

/-- Along a backpointer chain, the backtracking loop succeeds from any
position of the top layer and produces a path whose successive entries
belong to the successive positions lists. -/
theorem traceBack_spec {ps : List Pos} {ch : List TabAgent.Layer}
    {pss : List (List Pos)} {bot : List Pos} (h : BChain ps ch pss bot) :
    ∀ p ∈ ps, ∃ tail, TabAgent.traceBack ch p = some (p :: tail) ∧
      List.Forall₂ (fun (q : Pos) (qs : List Pos) => q ∈ qs) tail pss := by
  induction h with
  | nil ps => exact fun p _ => ⟨[], rfl, List.Forall₂.nil⟩
  | @cons ps ps' bot L rest pss hstep htail ih =>
    intro p hp
    obtain ⟨q, hbq, hq⟩ := hstep p hp
    obtain ⟨tail, htr, hf⟩ := ih q hq
    refine ⟨q :: tail, ?_, List.Forall₂.cons hq hf⟩
    have hred : TabAgent.traceBack (L :: rest) p =
        (TabAgent.traceBack rest q).map (fun path => p :: path) := by
      show (match TabAgent.lookupBptr L p with
        | some q => (TabAgent.traceBack rest q).map (fun path => p :: path)
        | none => none) =
          (TabAgent.traceBack rest q).map (fun path => p :: path)
      rw [hbq]
    rw [hred, htr]
    rfl

namespace TabAgent

/-- Unfolding of one step of the forward pass. -/
theorem viterbiGo_cons (a : TabAgentState) (pn : Note) (pps : List Pos) (pl : Layer)
    (n : Note) (ps : List Pos) (rest : List (Note × List Pos)) :
    viterbiGo a pn pps pl ((n, ps) :: rest) =
      forwardStep a pl pps ps (n.start_time - pn.end_time) ::
        viterbiGo a n ps (forwardStep a pl pps ps (n.start_time - pn.end_time)) rest := rfl

/-- Every entry of a forward-pass layer built from a non-empty, finite-cost
predecessor layer has a finite cost and a backpointer into the predecessor
candidates. -/
theorem forwardStep_layer_facts (a : TabAgentState) (pl : Layer) (pps ps : List Pos) (tg : ℚ)
    (hpps : pps ≠ []) (hfin : ∀ p ∈ pps, lookupCost pl p ≠ ⊤) :
    ∀ p ∈ ps, lookupCost (forwardStep a pl pps ps tg) p ≠ ⊤ ∧
      ∃ q, lookupBptr (forwardStep a pl pps ps tg) p = some q ∧ q ∈ pps := by
  intro p hp
  obtain ⟨c, q, hbest, hqmem, hcne⟩ := bestPrevFold_spec a pl tg pps p hpps hfin
  refine ⟨?_, ?_⟩
  · rw [lookupCost_forwardStep a pl pps tg hp, hbest]
    exact WithTop.add_ne_top.mpr ⟨hcne, WithTop.coe_ne_top⟩
  · rw [lookupBptr_forwardStep a pl pps tg hp, hbest]
    exact ⟨q, rfl, hqmem⟩

/-- The forward pass over the remaining notes maintains the backpointer
chain invariant: the reversed produced layers form a `BChain` from the
last note's candidates down to the first's, the recorded positions lists
are exactly the input ones, and the final layer has finite costs on the
last note's candidates. -/
theorem viterbiGo_spec (a : TabAgentState) :
    ∀ (rest : List (Note × List Pos)) (pn : Note) (pps : List Pos) (pl : Layer),
      pps ≠ [] →
      (∀ p ∈ pps, lookupCost pl p ≠ ⊤) →
      (∀ e ∈ rest, e.2 ≠ []) →
      ∃ pss,
        BChain ((rest.map (fun e => e.2)).getLastD pps)
          ((viterbiGo a pn pps pl rest).reverse) pss pps ∧
        (((rest.map (fun e => e.2)).getLastD pps) :: pss).reverse =
          pps :: rest.map (fun e => e.2) ∧
        (∀ p ∈ (rest.map (fun e => e.2)).getLastD pps,
          lookupCost ((viterbiGo a pn pps pl rest).getLastD pl) p ≠ ⊤) ∧
        (rest.map (fun e => e.2)).getLastD pps ≠ [] := by
  intro rest
  induction rest with
  | nil =>
    intro pn pps pl hne hfin _
    exact ⟨[], .nil pps, rfl, hfin, hne⟩
  | cons e rest' ih =>
    obtain ⟨n, ps⟩ := e
    intro pn pps pl hne hfin hrest
    have hps : ps ≠ [] := hrest (n, ps) (List.mem_cons_self _ _)
    have hfacts := forwardStep_layer_facts a pl pps ps (n.start_time - pn.end_time) hne hfin
    obtain ⟨pss', hchain, heqrev, hfinlast, hnelast⟩ :=
      ih n ps (forwardStep a pl pps ps (n.start_time - pn.end_time)) hps
        (fun p hp => (hfacts p hp).1) (fun e he => hrest e (List.mem_cons_of_mem _ he))
    have hrevone : ∀ (x : List Pos) (ys : List (List Pos)) (z : List Pos),
        (x :: (ys ++ [z])).reverse = z :: (x :: ys).reverse := by
      intro x ys z
      rw [show x :: (ys ++ [z]) = (x :: ys) ++ [z] from rfl, List.reverse_append]
      rfl
    refine ⟨pss' ++ [pps], ?_, ?_, ?_, ?_⟩
    · rw [List.map_cons, List.getLastD_cons, viterbiGo_cons, List.reverse_cons]
      exact hchain.append_one (fun p hp => (hfacts p hp).2)
    · rw [List.map_cons, List.getLastD_cons, hrevone, heqrev]
    · rw [List.map_cons, List.getLastD_cons, viterbiGo_cons, List.getLastD_cons]
      exact hfinlast
    · rw [List.map_cons, List.getLastD_cons]
      exact hnelast

/-- Turning a chosen path into `TabNote`s: if the path entries belong to
the respective candidate lists, every produced `TabNote` carries its
note's timing and pitch, a position from that note's candidates, and the
initial `"pick"` technique. -/
theorem zip_map_forall₂ :
    ∀ (np : List (Note × List Pos)) (path : List Pos),
      List.Forall₂ (fun (q : Pos) (qs : List Pos) => q ∈ qs) path (np.map (fun e => e.2)) →
      List.Forall₂ (fun (tn : TabNote) (e : Note × List Pos) =>
        (tn.string, tn.fret) ∈ e.2 ∧ tn.start_time = e.1.start_time ∧
          tn.end_time = e.1.end_time ∧ tn.pitch = e.1.pitch ∧ tn.technique = "pick")
        ((np.zip path).map fun e =>
          { string := e.2.1, fret := e.2.2, start_time := e.1.1.start_time,
            end_time := e.1.1.end_time, technique := "pick", pitch := e.1.1.pitch }) np := by
  intro np
  induction np with
  | nil =>
    intro path _
    exact List.Forall₂.nil
  | cons e np' ih =>
    intro path h
    rw [List.map_cons] at h
    cases h with
    | cons hp htail =>
      rename_i p path'
      rw [show ((e :: np').zip (p :: path')) = (e, p) :: np'.zip path' from rfl, List.map_cons]
      refine List.Forall₂.cons ?_ (ih path' htail)
      refine ⟨?_, rfl, rfl, rfl, rfl⟩
      simpa using hp

/-- `_viterbi_path` on a non-empty note list whose every note has at
least one candidate position succeeds, and each produced `TabNote` pairs
its note's data with one of that note's candidate positions. -/
theorem viterbiPath_spec (a : TabAgentState) (np : List (Note × List Pos))
    (hne : np ≠ []) (hpos : ∀ e ∈ np, e.2 ≠ []) :
    ∃ out, viterbiPath a np = some out ∧
      List.Forall₂ (fun (tn : TabNote) (e : Note × List Pos) =>
        (tn.string, tn.fret) ∈ e.2 ∧ tn.start_time = e.1.start_time ∧
          tn.end_time = e.1.end_time ∧ tn.pitch = e.1.pitch ∧ tn.technique = "pick")
        out np := by
  obtain ⟨e0, rest, rfl⟩ := List.exists_cons_of_ne_nil hne
  obtain ⟨n0, ps0⟩ := e0
  have hps0 : ps0 ≠ [] := hpos _ (List.mem_cons_self _ _)
  have h0fin : ∀ p ∈ ps0, lookupCost (initLayer a ps0) p ≠ ⊤ := by
    intro p hp
    rw [lookupCost_initLayer a hp]
    exact WithTop.coe_ne_top
  obtain ⟨pss, hchain, heqrev, hfinlast, hnelast⟩ :=
    viterbiGo_spec a rest n0 ps0 (initLayer a ps0) hps0 h0fin
      (fun e he => hpos e (List.mem_cons_of_mem _ he))
  obtain ⟨l₁, best, l₂, hsplit, hargmin, _, _⟩ :=
    argminFirst_spec
      (fun p => lookupCost
        ((viterbiGo a n0 ps0 (initLayer a ps0) rest).getLastD (initLayer a ps0)) p)
      ((rest.map (fun e => e.2)).getLastD ps0) hnelast
  have hbestmem : best ∈ (rest.map (fun e => e.2)).getLastD ps0 := by
    rw [hsplit]
    exact List.mem_append.mpr (Or.inr (List.mem_cons_self _ _))
  obtain ⟨tail, htr, hforall⟩ := traceBack_spec hchain best hbestmem
  have h2 : viterbiPath a ((n0, ps0) :: rest) =
      some ((((n0, ps0) :: rest).zip ((best :: tail).reverse)).map fun e =>
        ({ string := e.2.1, fret := e.2.2, start_time := e.1.1.start_time,
           end_time := e.1.1.end_time, technique := "pick",
           pitch := e.1.1.pitch } : TabNote)) := by
    simp only [viterbiPath]
    rw [hargmin]
    simp only []
    rw [htr]
  refine ⟨_, h2, ?_⟩
  have h4 : List.Forall₂ (fun (q : Pos) (qs : List Pos) => q ∈ qs)
      (best :: tail) (((rest.map (fun e => e.2)).getLastD ps0) :: pss) :=
    List.Forall₂.cons hbestmem hforall
  have h3 := List.rel_reverse h4
  rw [heqrev] at h3
  exact zip_map_forall₂ ((n0, ps0) :: rest) ((best :: tail).reverse) h3

/-- Technique detection never changes a note's position, timing or
pitch. -/
theorem detectStep_geometry (prev curr : TabNote) :
    sameGeometry (detectStep prev curr) curr := by
  unfold detectStep sameGeometry
  dsimp only
  split_ifs <;> exact ⟨rfl, rfl, rfl, rfl, rfl⟩

/-- One step of technique detection realizes the labelling rule, provided
the incoming label is the optimizer's initial `"pick"`. -/
theorem detectStep_technique (prev curr : TabNote) (hc : curr.technique = "pick") :
    techniqueSpec prev (detectStep prev curr) := by
  obtain ⟨hs, hf, hst, _, _⟩ := detectStep_geometry prev curr
  unfold techniqueSpec
  rw [hs, hf, hst]
  by_cases h1 : curr.string = prev.string ∧ curr.start_time - prev.end_time < 3/20
  · by_cases h2 : 1 ≤ (curr.fret - prev.fret).natAbs ∧ (curr.fret - prev.fret).natAbs ≤ 3
    · have hcond : curr.string = prev.string ∧ curr.start_time - prev.end_time < 3/20 ∧
          1 ≤ (curr.fret - prev.fret).natAbs ∧ (curr.fret - prev.fret).natAbs ≤ 3 :=
        ⟨h1.1, h1.2, h2.1, h2.2⟩
      rw [if_pos hcond]
      unfold detectStep
      dsimp only
      rw [if_pos h1, if_pos h2]
      by_cases h3 : 0 < curr.fret - prev.fret
      · rw [if_pos h3]
        by_cases h4 : 1 < curr.fret - prev.fret
        · rw [if_pos h4, if_pos h4]
        · have h5 : curr.fret - prev.fret = 1 := by omega
          rw [if_neg h4, if_neg h4, if_pos h5]
      · have h4 : ¬ 1 < curr.fret - prev.fret := by omega
        have h5 : curr.fret - prev.fret ≠ 1 := by omega
        rw [if_neg h3, if_neg h4, if_neg h5]
    · have hncond : ¬(curr.string = prev.string ∧ curr.start_time - prev.end_time < 3/20 ∧
          1 ≤ (curr.fret - prev.fret).natAbs ∧ (curr.fret - prev.fret).natAbs ≤ 3) :=
        fun hcon => h2 ⟨hcon.2.2.1, hcon.2.2.2⟩
      rw [if_neg hncond]
      unfold detectStep
      dsimp only
      rw [if_pos h1, if_neg h2]
      exact hc
  · have hncond : ¬(curr.string = prev.string ∧ curr.start_time - prev.end_time < 3/20 ∧
        1 ≤ (curr.fret - prev.fret).natAbs ∧ (curr.fret - prev.fret).natAbs ≤ 3) :=
      fun hcon => h1 ⟨hcon.1, hcon.2.1⟩
    rw [if_neg hncond]
    unfold detectStep
    dsimp only
    rw [if_neg h1]
    exact hc

/-- The technique-detection loop preserves geometry pointwise. -/
theorem detectGo_forall₂ : ∀ (l : List TabNote) (prev : TabNote),
    List.Forall₂ sameGeometry (TabAgent.detectGo prev l) l := by
  intro l
  induction l with
  | nil => intro prev; exact List.Forall₂.nil
  | cons c rest ih =>
    intro prev
    exact List.Forall₂.cons (detectStep_geometry prev c) (ih (TabAgent.detectStep prev c))

/-- `_detect_techniques` preserves geometry pointwise. -/
theorem detectTechniques_forall₂ (l : List TabNote) :
    List.Forall₂ sameGeometry (TabAgent.detectTechniques l) l := by
  match l with
  | [] => exact List.Forall₂.nil
  | [t] => exact List.Forall₂.cons ⟨rfl, rfl, rfl, rfl, rfl⟩ List.Forall₂.nil
  | t0 :: c :: rest =>
    exact List.Forall₂.cons ⟨rfl, rfl, rfl, rfl, rfl⟩ (detectGo_forall₂ (c :: rest) t0)

/-- The technique-detection loop produces a chain of correctly labelled
transitions when every incoming label is `"pick"`. -/
theorem detectGo_chain : ∀ (l : List TabNote) (prev : TabNote),
    (∀ t ∈ l, t.technique = "pick") →
    List.Chain techniqueSpec prev (TabAgent.detectGo prev l) := by
  intro l
  induction l with
  | nil => intro prev _; exact List.Chain.nil
  | cons c rest ih =>
    intro prev hall
    exact List.Chain.cons
      (detectStep_technique prev c (hall c (List.mem_cons_self _ _)))
      (ih (TabAgent.detectStep prev c) (fun t ht => hall t (List.mem_cons_of_mem _ ht)))

/-- `_detect_techniques` labels every consecutive output pair according to
the rule when the optimizer handed it all-`"pick"` notes. -/
theorem detectTechniques_chain (l : List TabNote)
    (hall : ∀ t ∈ l, t.technique = "pick") :
    List.Chain' techniqueSpec (TabAgent.detectTechniques l) := by
  match l with
  | [] => exact List.chain'_nil
  | [t] => exact List.chain'_singleton t
  | t0 :: c :: rest =>
    show List.Chain techniqueSpec t0 (TabAgent.detectGo t0 (c :: rest))
    exact detectGo_chain (c :: rest) t0 (fun t ht => hall t (List.mem_cons_of_mem _ ht))

/-- `_detect_techniques` keeps the first note in place. -/
theorem detectTechniques_head (l : List TabNote) :
    (TabAgent.detectTechniques l).head? = l.head? := by
  match l with
  | [] => rfl
  | [t] => rfl
  | t0 :: c :: rest => rfl

/-- From a `Forall₂`, every member of the left list is related to some
member of the right list. -/
theorem forall₂_mem_left {α β : Type _} {R : α → β → Prop} :
    ∀ {l₁ : List α} {l₂ : List β}, List.Forall₂ R l₁ l₂ →
      ∀ {x : α}, x ∈ l₁ → ∃ y ∈ l₂, R x y := by
  intro l₁ l₂ h
  induction h with
  | nil => intro x hx; cases hx
  | cons hR htail ih =>
    intro x hx
    rcases List.mem_cons.mp hx with rfl | hx'
    · exact ⟨_, List.mem_cons_self _ _, hR⟩
    · obtain ⟨y, hy, hRy⟩ := ih hx'
      exact ⟨y, List.mem_cons_of_mem _ hy, hRy⟩

/-- Transfer of a pairwise property across a `Forall₂`. -/
theorem pairwise_of_forall₂ {α β : Type _} {R : α → β → Prop} {S : β → β → Prop}
    {T : α → α → Prop}
    (H : ∀ a b a' b', R a a' → R b b' → S a' b' → T a b) :
    ∀ {l₁ : List α} {l₂ : List β}, List.Forall₂ R l₁ l₂ → l₂.Pairwise S → l₁.Pairwise T := by
  intro l₁ l₂ hf
  induction hf with
  | nil => intro _; exact List.Pairwise.nil
  | cons hR htail ih =>
    intro hp
    rcases List.pairwise_cons.mp hp with ⟨hhead, htailp⟩
    refine List.Pairwise.cons ?_ (ih htailp)
    intro b hb
    obtain ⟨b', hb', hRb⟩ := forall₂_mem_left htail hb
    exact H _ b _ b' hR hRb (hhead b' hb')

end TabAgent

/-- The playability filter of `generate_tab`: keeping a note exactly when
its candidate list is non-empty, paired with that list. -/
theorem filterMap_playable (a : TabAgentState) :
    ∀ (l : List Note),
      (l.filterMap fun n =>
        let ps := TabAgent.findPositions a n.pitch
        if ps.isEmpty then none else some (n, ps)) =
      (l.filter (fun n => !(TabAgent.findPositions a n.pitch).isEmpty)).map
        (fun n => (n, TabAgent.findPositions a n.pitch)) := by
  intro l
  induction l with
  | nil => rfl
  | cons n t ih =>
    by_cases h : (TabAgent.findPositions a n.pitch).isEmpty = true
    · rw [List.filterMap_cons_none (by dsimp only; rw [if_pos h]),
        List.filter_cons_of_neg (by simp [h]), ih]
    · rw [List.filterMap_cons_some (by dsimp only; rw [if_neg h]),
        List.filter_cons_of_pos (by simp [h]), List.map_cons, ih]

/-- Every entry of the playable-notes list pairs a note with its
(non-empty) candidate list. -/
theorem mem_playable_map (a : TabAgentState) (l : List Note) :
    ∀ e ∈ (l.filter (fun n => !(TabAgent.findPositions a n.pitch).isEmpty)).map
        (fun n => (n, TabAgent.findPositions a n.pitch)),
      e.2 = TabAgent.findPositions a e.1.pitch ∧ e.2 ≠ [] := by
  intro e he
  obtain ⟨n, hn, rfl⟩ := List.mem_map.mp he
  refine ⟨rfl, ?_⟩
  have h2 := (List.mem_filter.mp hn).2
  intro hcon
  have hcon2 : TabAgent.findPositions a n.pitch = [] := hcon
  rw [hcon2] at h2
  simp at h2

/-- `generate_tab` equals the unplayable-note-dropping pipeline: sort,
keep exactly the playable notes, run the DP on those (with the retained
notes adjacent), then detect techniques. -/
theorem generateTab_eq (a : TabAgentState) (notes : List Note) :
    TabAgent.generateTab a notes =
      (TabAgent.viterbiPath a
        (((notes.mergeSort (fun x y => x.start_time ≤ y.start_time)).filter
            (fun n => !(TabAgent.findPositions a n.pitch).isEmpty)).map
          (fun n => (n, TabAgent.findPositions a n.pitch)))).map TabAgent.detectTechniques := by
  unfold TabAgent.generateTab
  by_cases hnil : notes.isEmpty = true
  · rw [if_pos hnil]
    have hn : notes = [] := by
      cases notes with
      | nil => rfl
      | cons x xs => simp [List.isEmpty] at hnil
    subst hn
    simp only [List.mergeSort_nil, List.filter_nil, List.map_nil]
    rfl
  · rw [if_neg hnil]
    dsimp only
    rw [filterMap_playable]
    by_cases hX : (((notes.mergeSort (fun x y => x.start_time ≤ y.start_time)).filter
        (fun n => !(TabAgent.findPositions a n.pitch).isEmpty)).map
          (fun n => (n, TabAgent.findPositions a n.pitch))).isEmpty = true
    · rw [if_pos hX]
      have hX2 : (((notes.mergeSort (fun x y => x.start_time ≤ y.start_time)).filter
          (fun n => !(TabAgent.findPositions a n.pitch).isEmpty)).map
            (fun n => (n, TabAgent.findPositions a n.pitch))) = [] := by
        cases h : (((notes.mergeSort (fun x y => x.start_time ≤ y.start_time)).filter
            (fun n => !(TabAgent.findPositions a n.pitch).isEmpty)).map
              (fun n => (n, TabAgent.findPositions a n.pitch))) with
        | nil => rfl
        | cons x xs => rw [h] at hX; simp [List.isEmpty] at hX
      rw [hX2]
      rfl
    · rw [if_neg hX]

/-- Structure of a successful `generate_tab` run: the output is the
technique pass over a Viterbi result that pairs, in order, each playable
note (sorted by start time) with one of its own candidate positions. -/
theorem generateTab_spec (a : TabAgentState) (notes : List Note) (out : List TabNote)
    (hout : TabAgent.generateTab a notes = some out) :
    ∃ vit, out = TabAgent.detectTechniques vit ∧
      List.Forall₂ (fun (tn : TabNote) (e : Note × List Pos) =>
        (tn.string, tn.fret) ∈ e.2 ∧ tn.start_time = e.1.start_time ∧
          tn.end_time = e.1.end_time ∧ tn.pitch = e.1.pitch ∧ tn.technique = "pick")
        vit
        (((notes.mergeSort (fun x y => x.start_time ≤ y.start_time)).filter
            (fun n => !(TabAgent.findPositions a n.pitch).isEmpty)).map
          (fun n => (n, TabAgent.findPositions a n.pitch))) := by
  rw [generateTab_eq] at hout
  by_cases hX : (((notes.mergeSort (fun x y => x.start_time ≤ y.start_time)).filter
      (fun n => !(TabAgent.findPositions a n.pitch).isEmpty)).map
        (fun n => (n, TabAgent.findPositions a n.pitch))) = []
  · rw [hX] at hout ⊢
    refine ⟨[], ?_, List.Forall₂.nil⟩
    have : some (TabAgent.detectTechniques []) = some out := hout
    exact (Option.some.injEq _ _ ▸ this).symm
  · obtain ⟨vit, hv, hf⟩ := TabAgent.viterbiPath_spec a _ hX
      (fun e he => (mem_playable_map a _ e he).2)
    rw [hv] at hout
    have : some (TabAgent.detectTechniques vit) = some out := hout
    exact ⟨vit, (Option.some.injEq _ _ ▸ this).symm, hf⟩

/-- Construction records the number of strings as the tuning length. -/
theorem init_num_strings {tu : Option (List Int)} {nf : Int} {inst : String}
    {a : TabAgentState} (h : TabAgent.init tu nf inst = Except.ok a) :
    a.num_strings = a.tuning.length := by
  unfold TabAgent.init at h
  dsimp only at h
  rw [Except.ok.injEq] at h
  subst h
  rfl

/-- C4: a note with no candidate positions is dropped before the dynamic
program and `generate_tab` never aborts: the run always succeeds, and it
equals the pipeline that sorts the notes, keeps exactly the playable ones
(which thereby become adjacent for both transition costs and technique
comparisons), runs the Viterbi DP on them, and detects techniques. -/
theorem c4_unplayable_dropped (a : TabAgentState) (notes : List Note) :
    (TabAgent.generateTab a notes).isSome = true ∧
    TabAgent.generateTab a notes =
      (TabAgent.viterbiPath a
        (((notes.mergeSort (fun x y => x.start_time ≤ y.start_time)).filter
            (fun n => !(TabAgent.findPositions a n.pitch).isEmpty)).map
          (fun n => (n, TabAgent.findPositions a n.pitch)))).map TabAgent.detectTechniques := by
  refine ⟨?_, generateTab_eq a notes⟩
  rw [generateTab_eq]
  by_cases hX : (((notes.mergeSort (fun x y => x.start_time ≤ y.start_time)).filter
      (fun n => !(TabAgent.findPositions a n.pitch).isEmpty)).map
        (fun n => (n, TabAgent.findPositions a n.pitch))) = []
  · rw [hX]
    rfl
  · obtain ⟨vit, hv, _⟩ := TabAgent.viterbiPath_spec a _ hX
      (fun e he => (mem_playable_map a _ e he).2)
    rw [hv]
    rfl

/-- C5: every output `TabNote` is pitch-faithful and in range:
`tuning[string] + fret = pitch` exactly, with `string < num_strings` and
`0 ≤ fret ≤ num_frets`. -/
theorem c5_pitch_faithful (tu : Option (List Int)) (nf : Int) (inst : String)
    (a : TabAgentState) (ha : TabAgent.init tu nf inst = Except.ok a)
    (notes : List Note) (out : List TabNote)
    (hout : TabAgent.generateTab a notes = some out)
    (tn : TabNote) (htn : tn ∈ out) :
    tn.string < a.num_strings ∧ 0 ≤ tn.fret ∧ tn.fret ≤ a.num_frets ∧
      ∃ op, a.tuning[tn.string]? = some op ∧ op + tn.fret = tn.pitch := by
  obtain ⟨vit, hdet, hf⟩ := generateTab_spec a notes out hout
  rw [hdet] at htn
  obtain ⟨tv, htv, hgeo⟩ := TabAgent.forall₂_mem_left (TabAgent.detectTechniques_forall₂ vit) htn
  obtain ⟨e, hemem, hP⟩ := TabAgent.forall₂_mem_left hf htv
  obtain ⟨hE2, _⟩ := mem_playable_map a _ e hemem
  obtain ⟨hs, hfr, _, _, hpi⟩ := hgeo
  obtain ⟨hpos, _, _, hpitch, _⟩ := hP
  rw [hE2] at hpos
  have hm := TabAgent.findPositions_mem hpos
  rw [init_num_strings ha]
  refine ⟨by rw [hs]; exact hm.1, by rw [hfr]; exact hm.2.1, by rw [hfr]; exact hm.2.2.1, ?_⟩
  refine ⟨tn.pitch - tn.fret, ?_, by ring⟩
  rw [hs, hfr, hpi, hpitch]
  exact hm.2.2.2

/-- C6: consecutive output pairs follow the technique rule (slide for a
same-string quick move of more than one fret, hammer for exactly one fret
up, pull for a downward move, pick otherwise), and the first output note
is always labelled pick. -/
theorem c6_technique_rule (a : TabAgentState) (notes : List Note) (out : List TabNote)
    (hout : TabAgent.generateTab a notes = some out) :
    List.Chain' techniqueSpec out ∧ ∀ t ∈ out.head?, t.technique = "pick" := by
  obtain ⟨vit, hdet, hf⟩ := generateTab_spec a notes out hout
  have hall : ∀ t ∈ vit, t.technique = "pick" := by
    intro t ht
    obtain ⟨e, _, hP⟩ := TabAgent.forall₂_mem_left hf ht
    exact hP.2.2.2.2
  constructor
  · rw [hdet]
    exact TabAgent.detectTechniques_chain vit hall
  · intro t ht
    rw [hdet, TabAgent.detectTechniques_head] at ht
    exact hall t (List.mem_of_mem_head? ht)

/-- C7: the output never has more notes than the input, with equality
exactly when every input note is playable. -/
theorem c7_cardinality (a : TabAgentState) (notes : List Note) (out : List TabNote)
    (hout : TabAgent.generateTab a notes = some out) :
    out.length ≤ notes.length ∧
      (out.length = notes.length ↔
        ∀ n ∈ notes, TabAgent.findPositions a n.pitch ≠ []) := by
  obtain ⟨vit, hdet, hf⟩ := generateTab_spec a notes out hout
  have hlen : out.length = ((notes.mergeSort (fun x y => x.start_time ≤ y.start_time)).filter
      (fun n => !(TabAgent.findPositions a n.pitch).isEmpty)).length := by
    rw [hdet, (TabAgent.detectTechniques_forall₂ vit).length_eq, hf.length_eq, List.length_map]
  have hslen : (notes.mergeSort (fun x y => x.start_time ≤ y.start_time)).length =
      notes.length := List.length_mergeSort notes
  constructor
  · rw [hlen]
    exact le_trans (List.length_filter_le _ _) (le_of_eq hslen)
  · rw [hlen, ← hslen, ← List.countP_eq_length_filter, List.countP_eq_length]
    constructor
    · intro h n hn
      have hp := h n (List.mem_mergeSort.mpr hn)
      intro hcon
      rw [hcon] at hp
      simp at hp
    · intro h n hn
      have hne := h n (List.mem_mergeSort.mp hn)
      cases hfp : TabAgent.findPositions a n.pitch with
      | nil => exact absurd hfp hne
      | cons x xs => simp [hfp]

/-- C8: the output of `generate_tab` is sorted ascending by start time,
whatever the order of the input notes — the optimizer sorts internally. -/
theorem c8_sorted_output (a : TabAgentState) (notes : List Note) (out : List TabNote)
    (hout : TabAgent.generateTab a notes = some out) :
    out.Pairwise (fun x y => x.start_time ≤ y.start_time) := by
  obtain ⟨vit, hdet, hf⟩ := generateTab_spec a notes out hout
  have hsorted : (notes.mergeSort (fun x y => x.start_time ≤ y.start_time)).Pairwise
      (fun x y => decide (x.start_time ≤ y.start_time) = true) :=
    List.sorted_mergeSort
      (by
        intro x y z hxy hyz
        simp only [decide_eq_true_eq] at *
        exact le_trans hxy hyz)
      (by
        intro x y
        simp only [Bool.or_eq_true, decide_eq_true_eq]
        exact le_total _ _)
      notes
  have hfilter := hsorted.filter (fun n => !(TabAgent.findPositions a n.pitch).isEmpty)
  have hX : ((((notes.mergeSort (fun x y => x.start_time ≤ y.start_time)).filter
      (fun n => !(TabAgent.findPositions a n.pitch).isEmpty)).map
        (fun n => (n, TabAgent.findPositions a n.pitch))).Pairwise
      (fun e e' : Note × List Pos => e.1.start_time ≤ e'.1.start_time)) := by
    rw [List.pairwise_map]
    exact hfilter.imp (by intro x y h; exact of_decide_eq_true h)
  have hvit : vit.Pairwise (fun x y : TabNote => x.start_time ≤ y.start_time) :=
    TabAgent.pairwise_of_forall₂
      (by
        intro tv tw e e' hP hQ hle
        rw [hP.2.1, hQ.2.1]
        exact hle)
      hf hX
  rw [hdet]
  exact TabAgent.pairwise_of_forall₂
    (by
      intro x y x' y' hg hg' hle
      rw [hg.2.2.1, hg'.2.2.1]
      exact hle)
    (TabAgent.detectTechniques_forall₂ vit) hvit

/-- C9: cost ties are broken deterministically by enumeration order: the
position enumerator lists candidates in strictly ascending string order,
and both the Viterbi recurrence's predecessor choice and the final argmin
return the first candidate attaining the minimal cost. -/
theorem c9_tie_break :
    (∀ (a : TabAgentState) (pitch : Int),
      (TabAgent.findPositions a pitch).Pairwise (fun p q => p.1 < q.1)) ∧
    (∀ (a : TabAgentState) (prevLayer : TabAgent.Layer) (tg : ℚ)
        (prevPs : List Pos) (pc : Pos),
      prevPs ≠ [] → (∀ pp ∈ prevPs, TabAgent.lookupCost prevLayer pp ≠ ⊤) →
      ∃ l₁ q l₂, prevPs = l₁ ++ q :: l₂ ∧
        (TabAgent.bestPrevFold a prevLayer tg prevPs pc).2 = some q ∧
        (∀ r ∈ l₁,
          TabAgent.lookupCost prevLayer q + (TabAgent.transitionCost a q pc tg : WithTop ℚ) <
            TabAgent.lookupCost prevLayer r + (TabAgent.transitionCost a r pc tg : WithTop ℚ)) ∧
        (∀ r ∈ prevPs,
          TabAgent.lookupCost prevLayer q + (TabAgent.transitionCost a q pc tg : WithTop ℚ) ≤
            TabAgent.lookupCost prevLayer r + (TabAgent.transitionCost a r pc tg : WithTop ℚ))) ∧
    (∀ (f : Pos → WithTop ℚ) (ps : List Pos), ps ≠ [] →
      ∃ l₁ q l₂, ps = l₁ ++ q :: l₂ ∧ TabAgent.argminFirst f ps = some q ∧
        (∀ r ∈ l₁, f q < f r) ∧ (∀ r ∈ ps, f q ≤ f r)) := by
  refine ⟨TabAgent.findPositions_pairwise, ?_, TabAgent.argminFirst_spec⟩
  intro a prevLayer tg prevPs pc hne hfin
  obtain ⟨l₁, q, l₂, hl, heq, hstrict, hle⟩ :=
    TabAgent.bestPrevFold_first_min a prevLayer tg prevPs pc hne hfin
  exact ⟨l₁, q, l₂, hl, by rw [heq], hstrict, hle⟩

unseal String.mapAux in
/-- Helper: the standard-guitar construction yields `cfgStd`. -/
theorem initStd_eq :
    TabAgent.init (some [40, 45, 50, 55, 59, 64]) 24 "guitar" = Except.ok cfgStd := by
  unfold TabAgent.init cfgStd
  dsimp only
  rw [show "guitar".toLower = "guitar" from by decide]
  rfl

unseal Rat.add Rat.mul Rat.sub Rat.inv Nat.gcd List.merge List.mergeSort in
/-- Witness for C5 at the C1 scenario input. -/
theorem c5_witness :
    tabA.string < cfgStd.num_strings ∧ 0 ≤ tabA.fret ∧ tabA.fret ≤ cfgStd.num_frets ∧
      ∃ op, cfgStd.tuning[tabA.string]? = some op ∧ op + tabA.fret = tabA.pitch :=
  c5_pitch_faithful (some [40, 45, 50, 55, 59, 64]) 24 "guitar" cfgStd initStd_eq
    [n45, n47] [tabA, tabB] (by decide) tabA (List.mem_cons_self _ _)

unseal Rat.add Rat.mul Rat.sub Rat.inv Nat.gcd List.merge List.mergeSort in
/-- Witness for C6 at the C1 scenario input. -/
theorem c6_witness :
    List.Chain' techniqueSpec [tabA, tabB] ∧
      ∀ t ∈ ([tabA, tabB] : List TabNote).head?, t.technique = "pick" :=
  c6_technique_rule cfgStd [n45, n47] [tabA, tabB] (by decide)

unseal Rat.add Rat.mul Rat.sub Rat.inv Nat.gcd List.merge List.mergeSort in
/-- Witness for C7 at the C1 scenario input. -/
theorem c7_witness :
    ([tabA, tabB] : List TabNote).length ≤ ([n45, n47] : List Note).length ∧
      (([tabA, tabB] : List TabNote).length = ([n45, n47] : List Note).length ↔
        ∀ n ∈ [n45, n47], TabAgent.findPositions cfgStd n.pitch ≠ []) :=
  c7_cardinality cfgStd [n45, n47] [tabA, tabB] (by decide)

unseal Rat.add Rat.mul Rat.sub Rat.inv Nat.gcd List.merge List.mergeSort in
/-- Witness for C8 at the C1 scenario input. -/
theorem c8_witness :
    ([tabA, tabB] : List TabNote).Pairwise (fun x y => x.start_time ≤ y.start_time) :=
  c8_sorted_output cfgStd [n45, n47] [tabA, tabB] (by decide)

unseal Rat.add Rat.mul Rat.sub Rat.inv Nat.gcd in
/-- Witness for C9: the recurrence's predecessor choice and the final
argmin, at the first layer of the C1 scenario. -/
theorem c9_witness :
    (∃ l₁ q l₂, ([(0, 5), (1, 0)] : List Pos) = l₁ ++ q :: l₂ ∧
      (TabAgent.bestPrevFold cfgStd layer45 0 [(0, 5), (1, 0)] (0, 7)).2 = some q ∧
      (∀ r ∈ l₁,
        TabAgent.lookupCost layer45 q +
            (TabAgent.transitionCost cfgStd q (0, 7) 0 : WithTop ℚ) <
          TabAgent.lookupCost layer45 r +
            (TabAgent.transitionCost cfgStd r (0, 7) 0 : WithTop ℚ)) ∧
      (∀ r ∈ ([(0, 5), (1, 0)] : List Pos),
        TabAgent.lookupCost layer45 q +
            (TabAgent.transitionCost cfgStd q (0, 7) 0 : WithTop ℚ) ≤
          TabAgent.lookupCost layer45 r +
            (TabAgent.transitionCost cfgStd r (0, 7) 0 : WithTop ℚ))) ∧
    (∃ l₁ q l₂, ([(0, 5), (1, 0)] : List Pos) = l₁ ++ q :: l₂ ∧
      TabAgent.argminFirst (fun p => TabAgent.lookupCost layer45 p) [(0, 5), (1, 0)] = some q ∧
      (∀ r ∈ l₁, TabAgent.lookupCost layer45 q < TabAgent.lookupCost layer45 r) ∧
      (∀ r ∈ ([(0, 5), (1, 0)] : List Pos),
        TabAgent.lookupCost layer45 q ≤ TabAgent.lookupCost layer45 r)) :=
  ⟨c9_tie_break.2.1 cfgStd layer45 0 [(0, 5), (1, 0)] (0, 7) (by decide) (by decide),
   c9_tie_break.2.2 (fun p => TabAgent.lookupCost layer45 p) [(0, 5), (1, 0)] (by decide)⟩

end TabHF
